import Mathlib

/-!
Verification development for the openbook-v2 central limit order book engine.

The repository excerpt under examination contains the integration test
`tests/cases/test_fees.rs` and the fuzz harness `fuzz/src/lib.rs`.  The
matching / book / event-queue / settlement core that these files exercise is
not part of the excerpt, so it is modelled here from the specification
(spec.md §§3-4, 6-8); each such definition carries a doc comment starting
with `Modelled from the spec:`.  The fuzz-harness state machine, whose source
is present, is embedded directly from `fuzz/src/lib.rs`.
-/

namespace Openbook

/-- Modelled from the spec: order side (§3 Order). -/
inductive Side
  | bid
  | ask
deriving DecidableEq, Repr

/-- Modelled from the spec: the side a matched maker order rests on is the
opposite of the taker's side (§4.2). -/
def Side.opposite : Side → Side
  | .bid => .ask
  | .ask => .bid

/-- Modelled from the spec: self-trade behaviors of §4.2 step 2 — cancel the
resting order, cancel the incoming remainder, decrement both, or reject the
whole placement (`MatchError::SelfTradeReject`). -/
inductive SelfTradeBehavior
  | decrementTake
  | cancelProvide
  | cancelTake
  | reject
deriving DecidableEq, Repr

/-- Modelled from the spec: order types (§4.2 step 3): a limit order rests its
remainder, immediate-or-cancel discards it, fill-or-kill fails unless fully
filled. -/
inductive OrderType
  | limit
  | immediateOrCancel
  | fillOrKill
deriving DecidableEq, Repr

/-- Modelled from the spec: matching-path error taxonomy (§4.2). -/
inductive MatchError
  | bookFull
  | wouldNotFullyFill
  | invalidPrice
  | invalidQuantity
  | selfTradeReject
deriving DecidableEq, Repr

/-- Modelled from the spec: sweep-fees fails for any identity other than the
configured collect-fee admin (§4.4). -/
inductive SweepError
  | unauthorizedCollectFeeAdmin
deriving DecidableEq, Repr

/-- Modelled from the spec: Market static configuration (§3 Market): lot sizes,
maker/taker fee rates, collect-fee admin identity.  Accounts and admins are
identified by naturals.  Following §9, fee rates are integer-scaled decimals:
a rate is `rateNum / 1000000` (millionths), e.g. the test market's taker fee
of 0.0002 is `takerFeeNum = 200`. -/
structure Market where
  baseLotSize : Int
  quoteLotSize : Int
  makerFeeNum : Int
  takerFeeNum : Int
  collectFeeAdmin : Nat
deriving DecidableEq, Repr

/-- Modelled from the spec: native quote value of `qty` base lots traded at
`price` quote lots per base lot (Glossary: native amounts are
`lots × lot_size`). -/
def notionalNative (m : Market) (price qty : Int) : Int :=
  qty * price * m.quoteLotSize

/-- Modelled from the spec: fee arithmetic (§4.2 step 2, §4.4 numeric rule) —
a fee is the traded notional times the fee rate (`rateNum` millionths),
rounded in the protocol's favor, i.e. up: the ceiling of
`rateNum * notional / 1000000`, written with integer floor division. -/
def feeCeil (rateNum notional : Int) : Int :=
  -((-(rateNum * notional)) / 1000000)

/-- Modelled from the spec: the per-match balance deltas of §8 "Value
conservation" — base-lot deltas for taker and maker, native quote deltas for
taker and maker, and the delta of the market's `fees_accrued`. -/
structure FillDeltas where
  takerBaseLots : Int
  makerBaseLots : Int
  takerQuoteNative : Int
  makerQuoteNative : Int
  feesAccruedDelta : Int
deriving DecidableEq, Repr

/-- Modelled from the spec: deltas of one match of `qty` base lots at `price`
(§4.2 step 2): the taker pays/receives the notional adjusted by the taker fee,
the maker receives/pays the notional adjusted by the maker fee, and both fees
accrue to the market. -/
def fillDeltas (m : Market) (takerSide : Side) (price qty : Int) : FillDeltas :=
  let n := notionalNative m price qty
  let tf := feeCeil m.takerFeeNum n
  let mf := feeCeil m.makerFeeNum n
  match takerSide with
  | .bid =>
    { takerBaseLots := qty
      makerBaseLots := -qty
      takerQuoteNative := -(n + tf)
      makerQuoteNative := n - mf
      feesAccruedDelta := tf + mf }
  | .ask =>
    { takerBaseLots := -qty
      makerBaseLots := qty
      takerQuoteNative := n - tf
      makerQuoteNative := -(n + mf)
      feesAccruedDelta := tf + mf }

/-- Modelled from the spec: a resting order (§3 Order): owner, price and
quantity in lots, time-priority sequence number, client order id. -/
structure RestingOrder where
  owner : Nat
  price : Int
  qty : Int
  seq : Nat
  clientOrderId : Nat
deriving DecidableEq, Repr

/-- Modelled from the spec: a fill event (§3 Event): maker and taker accounts,
taker side, traded price and quantity, and the maker order's sequence
number. -/
structure FillEvent where
  maker : Nat
  taker : Nat
  takerSide : Side
  price : Int
  qty : Int
  makerSeq : Nat
deriving DecidableEq, Repr

/-- Modelled from the spec: an "out" event (§3 Event): an order removed without
a trade, identifying the owner, the side it rested on, its price and the freed
quantity. -/
structure OutEvent where
  owner : Nat
  side : Side
  price : Int
  qty : Int
deriving DecidableEq, Repr

/-- Modelled from the spec: an event-queue entry (§3 Event). -/
inductive Event
  | fill (f : FillEvent)
  | out (o : OutEvent)
deriving DecidableEq, Repr

/-- Modelled from the spec: per-account per-market Position (§3 Position). -/
structure Position where
  bidsBaseLots : Int
  asksBaseLots : Int
  basePositionLots : Int
  quotePositionNative : Int
  baseFreeNative : Int
  quoteFreeNative : Int
deriving DecidableEq, Repr

/-- Modelled from the spec: the all-zero Position a fresh open-orders account
starts with. -/
def Position.zero : Position :=
  { bidsBaseLots := 0, asksBaseLots := 0, basePositionLots := 0
    quotePositionNative := 0, baseFreeNative := 0, quoteFreeNative := 0 }

/-- Modelled from the spec: whether a resting order at `restingPrice` crosses
an incoming order on `takerSide` with limit `limitPrice` (§4.2 step 2). -/
def crosses (takerSide : Side) (limitPrice restingPrice : Int) : Bool :=
  match takerSide with
  | .bid => restingPrice ≤ limitPrice
  | .ask => limitPrice ≤ restingPrice

/-- Modelled from the spec: result of one matching pass (§4.2): fill events in
match order, out events, unmatched remaining quantity, the opposite book after
matching, and whether the incoming remainder was cancelled by self-trade
handling. -/
structure MatchResult where
  fills : List FillEvent
  outs : List OutEvent
  remaining : Int
  book : List RestingOrder
  killed : Bool
deriving DecidableEq, Repr

/-- Modelled from the spec: the matching walk of §4.2 step 2 — walk the
opposite book from the front while the limit price still crosses and remaining
quantity is positive; traded quantity is the minimum of the two remainders; a
resting order of the taker's own account is handled by the configured
self-trade behavior and never produces a fill; fully consumed resting orders
are removed. -/
def matchAgainstBook (taker : Nat) (takerSide : Side) (stb : SelfTradeBehavior)
    (limitPrice : Int) :
    Int → List RestingOrder → Except MatchError MatchResult
  | remaining, [] => .ok ⟨[], [], remaining, [], false⟩
  | remaining, r :: rest =>
    if remaining ≤ 0 then
      .ok ⟨[], [], remaining, r :: rest, false⟩
    else if crosses takerSide limitPrice r.price then
      if r.owner = taker then
        match stb with
        | .reject => .error .selfTradeReject
        | .cancelTake => .ok ⟨[], [], remaining, r :: rest, true⟩
        | .cancelProvide =>
          match matchAgainstBook taker takerSide stb limitPrice remaining rest with
          | .error e => .error e
          | .ok res =>
            .ok { res with outs := ⟨r.owner, takerSide.opposite, r.price, r.qty⟩ :: res.outs }
        | .decrementTake =>
          if remaining < r.qty then
            .ok ⟨[], [⟨r.owner, takerSide.opposite, r.price, remaining⟩], 0,
                 { r with qty := r.qty - remaining } :: rest, false⟩
          else
            match matchAgainstBook taker takerSide stb limitPrice (remaining - r.qty) rest with
            | .error e => .error e
            | .ok res =>
              .ok { res with outs := ⟨r.owner, takerSide.opposite, r.price, r.qty⟩ :: res.outs }
      else
        if remaining < r.qty then
          .ok ⟨[⟨r.owner, taker, takerSide, r.price, remaining, r.seq⟩], [], 0,
               { r with qty := r.qty - remaining } :: rest, false⟩
        else
          match matchAgainstBook taker takerSide stb limitPrice (remaining - r.qty) rest with
          | .error e => .error e
          | .ok res =>
            .ok { res with fills := ⟨r.owner, taker, takerSide, r.price, r.qty, r.seq⟩ :: res.fills }
    else
      .ok ⟨[], [], remaining, r :: rest, false⟩

/-- Modelled from the spec: the total resting liquidity an order on
`takerSide` with limit `limitPrice` can cross — the summed quantity of the
opposite-side resting orders whose price crosses the limit (§8 fill-or-kill
scenario). -/
def totalCrossableLots (takerSide : Side) (limitPrice : Int)
    (book : List RestingOrder) : Int :=
  ((book.filter (fun r => crosses takerSide limitPrice r.price)).map
    (fun r => r.qty)).sum

/-- Modelled from the spec: synchronous taker-side Position update for one fill
(§4.2 step 2 "Update the taker's Position immediately"): the taker's base and
quote deltas of `fillDeltas` are applied, and the taker's proceeds become free
balance. -/
def applyTakerFill (m : Market) (p : Position) (f : FillEvent) : Position :=
  let d := fillDeltas m f.takerSide f.price f.qty
  match f.takerSide with
  | .bid =>
    { p with
      basePositionLots := p.basePositionLots + d.takerBaseLots
      quotePositionNative := p.quotePositionNative + d.takerQuoteNative
      baseFreeNative := p.baseFreeNative + f.qty * m.baseLotSize }
  | .ask =>
    { p with
      basePositionLots := p.basePositionLots + d.takerBaseLots
      quotePositionNative := p.quotePositionNative + d.takerQuoteNative
      quoteFreeNative := p.quoteFreeNative + d.takerQuoteNative }

/-- Modelled from the spec: deferred maker-side Position update applied when a
fill event is consumed (§4.2 step 2, §4.3): reserved lots on the maker's side
are released, the maker's base and quote deltas of `fillDeltas` are applied,
and the maker's proceeds become free balance. -/
def applyMakerFill (m : Market) (p : Position) (f : FillEvent) : Position :=
  let d := fillDeltas m f.takerSide f.price f.qty
  match f.takerSide with
  | .bid =>
    { p with
      asksBaseLots := p.asksBaseLots - f.qty
      basePositionLots := p.basePositionLots + d.makerBaseLots
      quotePositionNative := p.quotePositionNative + d.makerQuoteNative
      quoteFreeNative := p.quoteFreeNative + d.makerQuoteNative }
  | .ask =>
    { p with
      bidsBaseLots := p.bidsBaseLots - f.qty
      basePositionLots := p.basePositionLots + d.makerBaseLots
      quotePositionNative := p.quotePositionNative + d.makerQuoteNative
      baseFreeNative := p.baseFreeNative + f.qty * m.baseLotSize }

/-- Modelled from the spec: applying an "out" event (§3 Event, §4.3): the
owner's reserved lots on that side are released and the locked funds return to
the free balance. -/
def applyOutEvent (m : Market) (p : Position) (o : OutEvent) : Position :=
  match o.side with
  | .bid =>
    { p with
      bidsBaseLots := p.bidsBaseLots - o.qty
      quoteFreeNative := p.quoteFreeNative + notionalNative m o.price o.qty }
  | .ask =>
    { p with
      asksBaseLots := p.asksBaseLots - o.qty
      baseFreeNative := p.baseFreeNative + o.qty * m.baseLotSize }

/-- Modelled from the spec: price priority (§3 BookSide, §4.1): `a` has
strictly better price than `b` — higher for bids, lower for asks. -/
def betterPrice (s : Side) (p1 p2 : Int) : Bool :=
  match s with
  | .bid => p2 < p1
  | .ask => p1 < p2

/-- Modelled from the spec: the price-time priority order of a book side
(§4.1): strictly better price, or equal price and earlier sequence number. -/
def bookPriority (s : Side) (a b : RestingOrder) : Prop :=
  betterPrice s a.price b.price = true ∨ (a.price = b.price ∧ a.seq < b.seq)

/-- Modelled from the spec: the relation "matched earlier by price-time
priority" between two fills (§4.2 tie-break rule): the earlier fill's maker
order has a strictly better price on the maker side, or the same price and a
smaller (earlier) sequence number. -/
def fillPriority (makerSide : Side) (f g : FillEvent) : Prop :=
  betterPrice makerSide f.price g.price = true ∨
    (f.price = g.price ∧ f.makerSeq < g.makerSeq)

instance (s : Side) : DecidableRel (bookPriority s) := fun a b => by
  unfold bookPriority
  infer_instance

instance (s : Side) : DecidableRel (fillPriority s) := fun a b => by
  unfold fillPriority
  infer_instance

/-- Modelled from the spec: insertion into a book side ordered by `(price,
sequence)` (§4.1): a new order is placed before the first resting order it
strictly beats on price; at equal price it goes behind (FIFO, its sequence
number is the largest so far). -/
def insertOrder (s : Side) (o : RestingOrder) : List RestingOrder → List RestingOrder
  | [] => [o]
  | r :: rest =>
    if betterPrice s o.price r.price then o :: r :: rest
    else r :: insertOrder s o rest

/-- Modelled from the spec: engine state — the Market aggregate with its
running `fees_accrued`, both book sides, the event queue, the positions map
and the global sequence counter (§3). -/
structure EngineState where
  market : Market
  feesAccrued : Int
  bids : List RestingOrder
  asks : List RestingOrder
  events : List Event
  positions : Nat → Position
  seqCounter : Nat

/-- Modelled from the spec: placement outcome summary (§4.2 step 4). -/
structure PlaceOutcome where
  totalBaseTakenLots : Int
  restedLots : Int
  inserted : Bool
deriving DecidableEq, Repr

/-- Modelled from the spec: parameters of a placement request (§6
PlaceOrder). -/
structure OrderParams where
  owner : Nat
  side : Side
  priceLots : Int
  maxBaseLots : Int
  orderType : OrderType
  selfTradeBehavior : SelfTradeBehavior
  clientOrderId : Nat
deriving DecidableEq, Repr

/-- Modelled from the spec: the book side an incoming order on `s` matches
against (§4.2 step 2). -/
def oppositeBook (st : EngineState) : Side → List RestingOrder
  | .bid => st.asks
  | .ask => st.bids

/-- Modelled from the spec: committing a successful matching pass (§4.2 steps
2-4): the taker's Position is updated synchronously fill by fill, both fees of
every fill accrue to the market, all fill and out events are appended to the
queue, and a limit order's unmatched remainder (unless cancelled by self-trade
handling) is inserted into the own-side book, reserving its lots. -/
def applyMatch (st : EngineState) (o : OrderParams) (res : MatchResult) :
    EngineState × PlaceOutcome :=
  let takerPos := res.fills.foldl (applyTakerFill st.market) (st.positions o.owner)
  let feesDelta := res.fills.foldl
    (fun acc f => acc + (fillDeltas st.market f.takerSide f.price f.qty).feesAccruedDelta) 0
  let doRest : Bool :=
    o.orderType == OrderType.limit && !res.killed && decide (0 < res.remaining)
  let finalPos :=
    if doRest then
      match o.side with
      | .bid => { takerPos with bidsBaseLots := takerPos.bidsBaseLots + res.remaining }
      | .ask => { takerPos with asksBaseLots := takerPos.asksBaseLots + res.remaining }
    else takerPos
  let newOrder : RestingOrder :=
    ⟨o.owner, o.priceLots, res.remaining, st.seqCounter, o.clientOrderId⟩
  let newBids := match o.side with
    | .bid => if doRest then insertOrder .bid newOrder st.bids else st.bids
    | .ask => res.book
  let newAsks := match o.side with
    | .bid => res.book
    | .ask => if doRest then insertOrder .ask newOrder st.asks else st.asks
  ({ st with
      bids := newBids
      asks := newAsks
      events := st.events ++ res.fills.map Event.fill ++ res.outs.map Event.out
      feesAccrued := st.feesAccrued + feesDelta
      positions := fun a => if a = o.owner then finalPos else st.positions a
      seqCounter := st.seqCounter + 1 },
   { totalBaseTakenLots := o.maxBaseLots - res.remaining
     restedLots := if doRest then res.remaining else 0
     inserted := doRest })

/-- Modelled from the spec: order placement (§4.2): validate price and
quantity, match against the opposite book, fail fill-or-kill placements that
would not fully fill, then commit the matching pass with `applyMatch`. -/
def placeOrder (st : EngineState) (o : OrderParams) :
    Except MatchError (EngineState × PlaceOutcome) :=
  if o.priceLots ≤ 0 then .error .invalidPrice
  else if o.maxBaseLots ≤ 0 then .error .invalidQuantity
  else
    match matchAgainstBook o.owner o.side o.selfTradeBehavior o.priceLots
        o.maxBaseLots (oppositeBook st o.side) with
    | .error e => .error e
    | .ok res =>
      if o.orderType = OrderType.fillOrKill ∧ 0 < res.remaining then
        .error .wouldNotFullyFill
      else
        .ok (applyMatch st o res)

/-- Modelled from the spec: the account a queue entry belongs to — the maker
of a fill, the owner of an out (§4.3). -/
def eventAccount : Event → Nat
  | .fill f => f.maker
  | .out o => o.owner

/-- Modelled from the spec: applying one consumed queue entry to its account's
Position (§4.3). -/
def applyEventTo (m : Market) (p : Position) : Event → Position
  | .fill f => applyMakerFill m p f
  | .out o => applyOutEvent m p o

/-- Modelled from the spec: the deferred-consumption pass of §4.3 — walk the
queue in FIFO order; entries whose account is in the supplied set are applied
to that account's Position and removed; entries for other accounts remain
pending in order. -/
def consumeEventsAux (m : Market) (accts : List Nat) :
    List Event → (Nat → Position) → List Event × (Nat → Position)
  | [], ps => ([], ps)
  | e :: rest, ps =>
    if eventAccount e ∈ accts then
      consumeEventsAux m accts rest
        (fun a => if a = eventAccount e then applyEventTo m (ps (eventAccount e)) e else ps a)
    else
      let res := consumeEventsAux m accts rest ps
      (e :: res.1, res.2)

/-- Modelled from the spec: the consume-events operation (§4.3, §6). -/
def consumeEvents (st : EngineState) (accts : List Nat) : EngineState :=
  let res := consumeEventsAux st.market accts st.events st.positions
  { st with events := res.1, positions := res.2 }

/-- Modelled from the spec: the token transfer a settlement requests from the
external transfer collaborator (§4.4). -/
structure TransferRequest where
  baseNative : Int
  quoteNative : Int
deriving DecidableEq, Repr

/-- Modelled from the spec: `settle_funds` (§4.4) — moves `base_free_native`
and `quote_free_native` to zero, returning the amounts to transfer to the
owner's external token accounts. -/
def settleFunds (st : EngineState) (owner : Nat) : EngineState × TransferRequest :=
  let p := st.positions owner
  ({ st with
      positions := fun a =>
        if a = owner then { p with baseFreeNative := 0, quoteFreeNative := 0 }
        else st.positions a },
   { baseNative := p.baseFreeNative, quoteNative := p.quoteFreeNative })

/-- Modelled from the spec: `sweep_fees` (§4.4) — transfers `fees_accrued` to
the fee-admin recipient and resets it to zero; fails for any caller other than
the configured collect-fee admin. -/
def sweepFees (st : EngineState) (caller : Nat) : Except SweepError (EngineState × Int) :=
  if caller = st.market.collectFeeAdmin then
    .ok ({ st with feesAccrued := 0 }, st.feesAccrued)
  else
    .error .unauthorizedCollectFeeAdmin

/-- Modelled from the spec: predicate selecting a caller's resting order by
client order id, for cancellation (§6 CancelOrderByClientOrderId). -/
def matchesCancel (owner cid : Nat) (r : RestingOrder) : Bool :=
  r.owner == owner && r.clientOrderId == cid

/-- Modelled from the spec: cancel-by-client-order-id (§5, §6): synchronous
removal of the caller's matching resting orders from both sides, releasing
their reserved lots and locked funds; emits no event. -/
def cancelOrderByClientOrderId (st : EngineState) (owner cid : Nat) : EngineState :=
  let bidsGone := st.bids.filter (matchesCancel owner cid)
  let asksGone := st.asks.filter (matchesCancel owner cid)
  let pos1 := bidsGone.foldl
    (fun p r => applyOutEvent st.market p ⟨r.owner, .bid, r.price, r.qty⟩)
    (st.positions owner)
  let pos2 := asksGone.foldl
    (fun p r => applyOutEvent st.market p ⟨r.owner, .ask, r.price, r.qty⟩) pos1
  { st with
    bids := st.bids.filter (fun r => !matchesCancel owner cid r)
    asks := st.asks.filter (fun r => !matchesCancel owner cid r)
    positions := fun a => if a = owner then pos2 else st.positions a }

/-- Modelled from the spec: cancel-all-orders (§6): synchronous removal of all
of the caller's resting orders from both sides. -/
def cancelAllOrders (st : EngineState) (owner : Nat) : EngineState :=
  let bidsGone := st.bids.filter (fun r => r.owner == owner)
  let asksGone := st.asks.filter (fun r => r.owner == owner)
  let pos1 := bidsGone.foldl
    (fun p r => applyOutEvent st.market p ⟨r.owner, .bid, r.price, r.qty⟩)
    (st.positions owner)
  let pos2 := asksGone.foldl
    (fun p r => applyOutEvent st.market p ⟨r.owner, .ask, r.price, r.qty⟩) pos1
  { st with
    bids := st.bids.filter (fun r => !(r.owner == owner))
    asks := st.asks.filter (fun r => !(r.owner == owner))
    positions := fun a => if a = owner then pos2 else st.positions a }

/-- Modelled from the spec: the operations of §6 that the claims quantify
over. -/
inductive Op
  | place (o : OrderParams)
  | cancel (owner cid : Nat)
  | cancelAll (owner : Nat)
  | consume (accts : List Nat)
  | settle (owner : Nat)
  | sweep (caller : Nat)

/-- Modelled from the spec: one instruction applied to the engine state; a
failing instruction aborts atomically and leaves the state unchanged (§7
propagation policy). -/
def stepOp (st : EngineState) : Op → EngineState
  | .place o =>
    match placeOrder st o with
    | .ok res => res.1
    | .error _ => st
  | .cancel owner cid => cancelOrderByClientOrderId st owner cid
  | .cancelAll owner => cancelAllOrders st owner
  | .consume accts => consumeEvents st accts
  | .settle owner => (settleFunds st owner).1
  | .sweep caller =>
    match sweepFees st caller with
    | .ok res => res.1
    | .error _ => st

/-- Modelled from the spec: a sequence of instructions run back to back
(§5 execution model). -/
def runOps (st : EngineState) (ops : List Op) : EngineState :=
  ops.foldl stepOp st

/-- Modelled from the spec: a well-formed market configuration — positive lot
sizes (§3 Market) and fee rates of at most 100% (the §4.4 numeric rule keeps
every fee within the traded notional). -/
def marketWF (m : Market) : Prop :=
  0 < m.baseLotSize ∧ 0 < m.quoteLotSize ∧
    m.takerFeeNum ≤ 1000000 ∧ m.makerFeeNum ≤ 1000000

/-- Modelled from the spec: the §3 Order invariant — price and quantity are
strictly positive integers in lot units. -/
def orderWF (r : RestingOrder) : Prop :=
  0 < r.price ∧ 0 < r.qty

/-- Modelled from the spec: every queue entry records a strictly positive
price and quantity (§3 Event, created only from actual trades/removals). -/
def eventWF : Event → Prop
  | .fill f => 0 < f.price ∧ 0 < f.qty
  | .out o => 0 < o.price ∧ 0 < o.qty

/-- Modelled from the spec: the §8 "No negative free balance" property of one
Position. -/
def positionWF (p : Position) : Prop :=
  0 ≤ p.baseFreeNative ∧ 0 ≤ p.quoteFreeNative

/-- Modelled from the spec: the engine-state invariant — well-formed market,
books, queue, and positions. -/
def stateWF (st : EngineState) : Prop :=
  marketWF st.market ∧
    (∀ r ∈ st.bids, orderWF r) ∧
    (∀ r ∈ st.asks, orderWF r) ∧
    (∀ e ∈ st.events, eventWF e) ∧
    (∀ a, positionWF (st.positions a))

/-- Modelled from the spec: CreateMarket (§6) — empty book sides, empty event
queue, zero fees, all positions zero. -/
def initState (m : Market) : EngineState :=
  { market := m, feesAccrued := 0, bids := [], asks := []
    events := [], positions := fun _ => Position.zero, seqCounter := 0 }

/-- Example market mirroring the configuration of `test_fees_acrued`:
`base_lot_size = 100`, `quote_lot_size = 10`, maker fee 0.0001 (100
millionths), taker fee 0.0002 (200 millionths), collect-fee admin 5. -/
def exMarket : Market :=
  { baseLotSize := 100, quoteLotSize := 10, makerFeeNum := 100
    takerFeeNum := 200, collectFeeAdmin := 5 }

/-- The scenario of §8 and `test_fees_acrued`: account `A` bids 1 base lot at
price `p`, account `B` asks 1 base lot at price `p`, then events are consumed
for both accounts. -/
def scenarioOps (A B : Nat) (p : Int) : List Op :=
  [ .place ⟨A, .bid, p, 1, .limit, .decrementTake, 0⟩
  , .place ⟨B, .ask, p, 1, .limit, .decrementTake, 0⟩
  , .consume [A, B] ]

/-- State of the example market after account 0 placed the scenario bid (1
lot, price 10000). -/
def exStateAfterBid : EngineState :=
  stepOp (initState exMarket) (.place ⟨0, .bid, 10000, 1, .limit, .decrementTake, 0⟩)

/-- The scenario ask of account 1 as an order-parameter record. -/
def exAsk : OrderParams :=
  ⟨1, .ask, 10000, 1, .limit, .decrementTake, 0⟩

/-- The committed result of placing `exAsk` on `exStateAfterBid`. -/
def exPlaced : EngineState × PlaceOutcome :=
  match placeOrder exStateAfterBid exAsk with
  | .ok r => r
  | .error _ => (exStateAfterBid, ⟨0, 0, false⟩)

/-- A fill-or-kill ask of 2 lots against the single resting 1-lot bid of
`exStateAfterBid`. -/
def exFOK : OrderParams :=
  ⟨1, .ask, 10000, 2, .fillOrKill, .decrementTake, 0⟩

/-- An ask book in price-time priority order: two asks at price 50 with
sequence numbers 0 and 1, then one ask at price 60. -/
def exBook : List RestingOrder :=
  [⟨1, 50, 1, 0, 0⟩, ⟨2, 50, 1, 1, 0⟩, ⟨3, 60, 5, 2, 0⟩]

/-- The result of walking `exBook` with a 3-lot bid limited at price 60. -/
def exMatchRes : MatchResult :=
  match matchAgainstBook 9 .bid .decrementTake 60 3 exBook with
  | .ok r => r
  | .error _ => ⟨[], [], 0, [], false⟩

end Openbook

namespace Fuzz

/-!
Embedding of the fuzz harness `FuzzContext` of `fuzz/src/lib.rs`.  Pubkeys
are naturals drawn from a fresh-value counter (mirroring
`Pubkey::new_unique`).  The `AccountsState` module and `process_instruction`
are not part of the excerpt; `process_instruction` is therefore taken as an
abstract parameter `proc` acting on the accounts state, and the accounts
state is abstracted to the list of token accounts the harness itself adds.
-/

/-- `UserAccounts` of the fuzz harness: the per-user pubkeys stored in
`FuzzContext::users`. -/
structure UserAccounts where
  owner : Nat
  openOrders : Nat
  baseVault : Nat
  quoteVault : Nat
deriving DecidableEq, Repr

/-- A token account added to the harness's `AccountsState` via
`add_token_account_with_lamports(address, owner, mint, amount)`. -/
structure TokenAccountRec where
  address : Nat
  owner : Nat
  mint : Nat
  amount : Nat
deriving DecidableEq, Repr

/-- `ProgramResult` of `solana_program`: `Ok(())` or a program error. -/
inductive ProgramResult
  | ok
  | err
deriving DecidableEq, Repr

/-- The fuzz harness state relevant to its user/referrer bookkeeping: the
`users` and `referrers` maps of `FuzzContext`, the token accounts added to
`AccountsState`, the quote mint, and the fresh-pubkey counter. -/
structure FuzzState where
  quoteMint : Nat
  users : List (Nat × UserAccounts)
  referrers : List (Nat × Nat)
  tokenAccounts : List TokenAccountRec
  fresh : Nat
deriving DecidableEq, Repr

/-- `FuzzContext::get_or_create_new_referrer`: looks the referrer id up in
`referrers`; when absent it creates a fresh quote-vault pubkey, adds a token
account for it (owned by another fresh pubkey, on the quote mint, amount 0)
to the accounts state, and inserts it into the `referrers` map. -/
def getOrCreateNewReferrer (st : FuzzState) (rid : Nat) : FuzzState × Nat :=
  match st.referrers.lookup rid with
  | some qv => (st, qv)
  | none =>
    let quoteVault := st.fresh
    let ownerPk := st.fresh + 1
    ({ st with
        referrers := st.referrers ++ [(rid, quoteVault)]
        tokenAccounts :=
          st.tokenAccounts ++ [⟨quoteVault, ownerPk, st.quoteMint, 0⟩]
        fresh := st.fresh + 2 },
     quoteVault)

/-- `FuzzContext::cancel_order`: if the user id has no entry in `users`, it
returns `Ok(())` without touching anything; otherwise it runs
`process_instruction` (abstracted as `proc`) on the accounts state. -/
def cancelOrder (proc : List TokenAccountRec → List TokenAccountRec × ProgramResult)
    (st : FuzzState) (userId : Nat) : FuzzState × ProgramResult :=
  match st.users.lookup userId with
  | none => (st, .ok)
  | some _ =>
    let res := proc st.tokenAccounts
    ({ st with tokenAccounts := res.1 }, res.2)

/-- `FuzzContext::cancel_order_by_client_order_id`: same user guard as
`cancel_order`. -/
def cancelOrderByClientOrderId
    (proc : List TokenAccountRec → List TokenAccountRec × ProgramResult)
    (st : FuzzState) (userId : Nat) : FuzzState × ProgramResult :=
  match st.users.lookup userId with
  | none => (st, .ok)
  | some _ =>
    let res := proc st.tokenAccounts
    ({ st with tokenAccounts := res.1 }, res.2)

/-- `FuzzContext::cancel_all_orders`: same user guard as `cancel_order`. -/
def cancelAllOrders
    (proc : List TokenAccountRec → List TokenAccountRec × ProgramResult)
    (st : FuzzState) (userId : Nat) : FuzzState × ProgramResult :=
  match st.users.lookup userId with
  | none => (st, .ok)
  | some _ =>
    let res := proc st.tokenAccounts
    ({ st with tokenAccounts := res.1 }, res.2)

/-- `FuzzContext::settle_funds`: first resolves the optional referrer with
`get_or_create_new_referrer` (mutating the context when the referrer is new),
and only then checks the user id, returning `Ok(())` if it has no entry in
`users`. -/
def settleFunds (proc : List TokenAccountRec → List TokenAccountRec × ProgramResult)
    (st : FuzzState) (userId : Nat) (referrerId : Option Nat) :
    FuzzState × ProgramResult :=
  let stR := match referrerId with
    | some rid => (getOrCreateNewReferrer st rid).1
    | none => st
  match stR.users.lookup userId with
  | none => (stR, .ok)
  | some _ =>
    let res := proc stR.tokenAccounts
    ({ stR with tokenAccounts := res.1 }, res.2)

/-- A trivial stand-in for the absent `process_instruction` (it is never
reached on the paths the frame theorems describe). -/
def exProc : List TokenAccountRec → List TokenAccountRec × ProgramResult :=
  fun ta => (ta, .ok)

/-- An initialized harness in which no user and no referrer was ever
created. -/
def exFuzzState : FuzzState :=
  { quoteMint := 99, users := [], referrers := [], tokenAccounts := [], fresh := 0 }

end Fuzz

namespace Openbook

/-- C2 counterexample: on the test market (maker fee 0.0001, taker fee 0.0002,
price 10000 quote lots, notional 100000 native quote), the scenario drives
`fees_accrued` to 30 — the taker fee (20, which is `taker_rate × notional`
rounded up) plus the maker fee (10) — so the increase is not
`taker_rate × notional` rounded up. -/
theorem scenario_fees_claim_cex :
    ((runOps (initState exMarket) (scenarioOps 0 1 10000)).positions 0).basePositionLots = 1 ∧
    ((runOps (initState exMarket) (scenarioOps 0 1 10000)).positions 1).basePositionLots = -1 ∧
    (runOps (initState exMarket) (scenarioOps 0 1 10000)).feesAccrued = 30 ∧
    feeCeil exMarket.takerFeeNum (notionalNative exMarket 10000 1) = 20 ∧
    (runOps (initState exMarket) (scenarioOps 0 1 10000)).feesAccrued ≠
      feeCeil exMarket.takerFeeNum (notionalNative exMarket 10000 1) := by
  refine ⟨?_, ?_, ?_, ?_, ?_⟩ <;> decide

/-- C2 (amended).  Placing a bid for 1 base lot at price `p` from account `A`,
then an ask for 1 base lot at price `p` from account `B`, then consuming
events for both accounts leaves `A` with `base_position_lots = +1` and `B`
with `-1`, both with zero resting lots on both sides, and increases the
market's `fees_accrued` by the taker fee (taker rate times the traded
notional, rounded up) plus the maker fee (maker rate times the traded
notional, rounded up). -/
theorem scenario_bid_ask_consume (m : Market) (p : Int) (A B : Nat)
    (hp : 0 < p) (hAB : A ≠ B) :
    ((runOps (initState m) (scenarioOps A B p)).positions A).basePositionLots = 1 ∧
    ((runOps (initState m) (scenarioOps A B p)).positions B).basePositionLots = -1 ∧
    ((runOps (initState m) (scenarioOps A B p)).positions A).bidsBaseLots = 0 ∧
    ((runOps (initState m) (scenarioOps A B p)).positions A).asksBaseLots = 0 ∧
    ((runOps (initState m) (scenarioOps A B p)).positions B).bidsBaseLots = 0 ∧
    ((runOps (initState m) (scenarioOps A B p)).positions B).asksBaseLots = 0 ∧
    (runOps (initState m) (scenarioOps A B p)).feesAccrued =
      feeCeil m.takerFeeNum (notionalNative m p 1) +
        feeCeil m.makerFeeNum (notionalNative m p 1) := by
  have hple : ¬ p ≤ 0 := not_le.mpr hp
  have hBA : B ≠ A := hAB.symm
  simp [scenarioOps, runOps, stepOp, placeOrder, oppositeBook, matchAgainstBook,
    applyMatch, applyTakerFill, applyMakerFill, applyEventTo, eventAccount,
    consumeEvents, consumeEventsAux, insertOrder, initState, Position.zero,
    fillDeltas, crosses, hple, hAB, hBA]

/-- Witness for C2's amended theorem at the test configuration: price 10000,
accounts 0 and 1, fees 20 + 10 = 30. -/
theorem scenario_bid_ask_consume_witness :
    ((runOps (initState exMarket) (scenarioOps 0 1 10000)).positions 0).basePositionLots = 1 ∧
    ((runOps (initState exMarket) (scenarioOps 0 1 10000)).positions 1).basePositionLots = -1 ∧
    ((runOps (initState exMarket) (scenarioOps 0 1 10000)).positions 0).bidsBaseLots = 0 ∧
    (runOps (initState exMarket) (scenarioOps 0 1 10000)).feesAccrued = 30 := by
  have h := scenario_bid_ask_consume exMarket 10000 0 1 (by decide) (by decide)
  refine ⟨h.1, h.2.1, h.2.2.1, ?_⟩
  rw [h.2.2.2.2.2.2]
  decide

/-- C1.  For every match, the taker's and maker's base-lot deltas sum to zero,
and the taker's quote delta plus the maker's quote delta plus the delta of the
market's `fees_accrued` sum to zero: the fees are the only value created. -/
theorem fill_value_conservation (m : Market) (s : Side) (price qty : Int) :
    (fillDeltas m s price qty).takerBaseLots + (fillDeltas m s price qty).makerBaseLots = 0 ∧
    (fillDeltas m s price qty).takerQuoteNative + (fillDeltas m s price qty).makerQuoteNative +
      (fillDeltas m s price qty).feesAccruedDelta = 0 := by
  cases s <;> simp [fillDeltas] <;> ring

/-- Inversion of a successful placement: it is the commit, via `applyMatch`,
of a successful matching pass that did not trip the fill-or-kill check. -/
theorem placeOrder_ok_inv (st : EngineState) (o : OrderParams) (st2 : EngineState)
    (out : PlaceOutcome) (h : placeOrder st o = .ok (st2, out)) :
    ∃ res : MatchResult,
      matchAgainstBook o.owner o.side o.selfTradeBehavior o.priceLots o.maxBaseLots
        (oppositeBook st o.side) = .ok res ∧
      (st2, out) = applyMatch st o res := by
  unfold placeOrder at h
  split at h
  · exact Except.noConfusion h
  · split at h
    · exact Except.noConfusion h
    · split at h
      next e heq => exact Except.noConfusion h
      next res heq =>
        split at h
        · exact Except.noConfusion h
        · exact ⟨res, heq, (Except.ok.inj h).symm⟩

/-- The placement commit touches no Position other than the taker's. -/
theorem applyMatch_positions_frame (st : EngineState) (o : OrderParams)
    (res : MatchResult) (a : Nat) (ha : a ≠ o.owner) :
    (applyMatch st o res).1.positions a = st.positions a := by
  simp [applyMatch, ha]

/-- C4.  Within a placement call only the taker's Position changes: every
other account's Position — in particular each matched maker's — is untouched
at match time; the maker's Position is updated only when the corresponding
fill event is later consumed, at which point `applyMakerFill` commits the
maker-side deltas. -/
theorem maker_update_deferred (st : EngineState) (o : OrderParams)
    (st2 : EngineState) (out : PlaceOutcome)
    (hplace : placeOrder st o = .ok (st2, out)) :
    (∀ a, a ≠ o.owner → st2.positions a = st.positions a) ∧
    (∀ (s : EngineState) (f : FillEvent) (accts : List Nat),
      s.events = [Event.fill f] → f.maker ∈ accts →
      (consumeEvents s accts).positions f.maker =
        applyMakerFill s.market (s.positions f.maker) f) := by
  constructor
  · intro a ha
    obtain ⟨res, hm, happ⟩ := placeOrder_ok_inv st o st2 out hplace
    have hst2 : st2 = (applyMatch st o res).1 := congrArg Prod.fst happ
    rw [hst2]
    exact applyMatch_positions_frame st o res a ha
  · intro s f accts he hin
    simp [consumeEvents, he, consumeEventsAux, eventAccount, hin, applyEventTo]

/-- Witness for C4: placing the matching ask of the test scenario leaves
account 7 (and the fill's maker, account 0) untouched; consuming the produced
fill event for account 0 applies exactly the maker-side update. -/
theorem maker_update_deferred_witness :
    exPlaced.1.positions 7 = exStateAfterBid.positions 7 ∧
    (consumeEvents exPlaced.1 [0]).positions 0 =
      applyMakerFill exPlaced.1.market (exPlaced.1.positions 0)
        ⟨0, 1, .ask, 10000, 1, 0⟩ := by
  have h := maker_update_deferred exStateAfterBid exAsk exPlaced.1 exPlaced.2 rfl
  exact ⟨h.1 7 (by decide),
    h.2 exPlaced.1 ⟨0, 1, .ask, 10000, 1, 0⟩ [0] (by decide) (by decide)⟩

/-- Crossable liquidity is nonnegative on a book of nonnegative
quantities. -/
theorem totalCrossableLots_nonneg (s : Side) (limit : Int)
    (book : List RestingOrder) (hb : ∀ r ∈ book, 0 ≤ r.qty) :
    0 ≤ totalCrossableLots s limit book := by
  apply List.sum_nonneg
  intro x hx
  simp only [totalCrossableLots, List.mem_map, List.mem_filter] at hx
  obtain ⟨r, ⟨hr, _⟩, rfl⟩ := hx
  exact hb r hr

/-- With any self-trade behavior other than reject, the matching walk always
succeeds. -/
theorem matchAgainstBook_isOk (taker : Nat) (s : Side) (stb : SelfTradeBehavior)
    (limit : Int) (hstb : stb ≠ .reject) :
    ∀ (book : List RestingOrder) (rem : Int),
      ∃ res, matchAgainstBook taker s stb limit rem book = .ok res := by
  intro book
  induction book with
  | nil => exact fun rem => ⟨_, rfl⟩
  | cons r rest ih =>
    intro rem
    unfold matchAgainstBook
    by_cases h1 : rem ≤ 0
    · rw [if_pos h1]; exact ⟨_, rfl⟩
    · rw [if_neg h1]
      by_cases h2 : crosses s limit r.price
      · rw [if_pos h2]
        by_cases h3 : r.owner = taker
        · rw [if_pos h3]
          cases stb with
          | reject => exact absurd rfl hstb
          | cancelTake => exact ⟨_, rfl⟩
          | cancelProvide =>
            obtain ⟨res, hres⟩ := ih rem
            exact ⟨_, by rw [hres]⟩
          | decrementTake =>
            by_cases h4 : rem < r.qty
            · rw [if_pos h4]; exact ⟨_, rfl⟩
            · rw [if_neg h4]
              obtain ⟨res, hres⟩ := ih (rem - r.qty)
              exact ⟨_, by rw [hres]⟩
        · rw [if_neg h3]
          by_cases h4 : rem < r.qty
          · rw [if_pos h4]; exact ⟨_, rfl⟩
          · rw [if_neg h4]
            obtain ⟨res, hres⟩ := ih (rem - r.qty)
            exact ⟨_, by rw [hres]⟩
      · rw [if_neg h2]; exact ⟨_, rfl⟩

/-- The matching walk consumes at most the crossable liquidity: the unmatched
remainder is bounded below by the incoming quantity minus the total crossable
resting quantity. -/
theorem matchAgainstBook_remaining_ge (taker : Nat) (s : Side)
    (stb : SelfTradeBehavior) (limit : Int) :
    ∀ (book : List RestingOrder) (rem : Int) (res : MatchResult),
      (∀ r ∈ book, 0 ≤ r.qty) →
      matchAgainstBook taker s stb limit rem book = .ok res →
      rem - totalCrossableLots s limit book ≤ res.remaining := by
  intro book
  induction book with
  | nil =>
    intro rem res _ h
    obtain rfl : MatchResult.mk [] [] rem [] false = res := Except.ok.inj h
    simp [totalCrossableLots]
  | cons r rest ih =>
    intro rem res hb h
    have hbr : 0 ≤ r.qty := hb r (List.mem_cons_self r rest)
    have hbrest : ∀ x ∈ rest, 0 ≤ x.qty := fun x hx => hb x (List.mem_cons_of_mem r hx)
    have htot : 0 ≤ totalCrossableLots s limit rest :=
      totalCrossableLots_nonneg s limit rest hbrest
    have htot0 : 0 ≤ totalCrossableLots s limit (r :: rest) :=
      totalCrossableLots_nonneg s limit (r :: rest) hb
    unfold matchAgainstBook at h
    by_cases h1 : rem ≤ 0
    · rw [if_pos h1] at h
      obtain rfl : MatchResult.mk [] [] rem (r :: rest) false = res := Except.ok.inj h
      dsimp only
      omega
    · rw [if_neg h1] at h
      by_cases h2 : crosses s limit r.price
      · rw [if_pos h2] at h
        have htcons : totalCrossableLots s limit (r :: rest) =
            r.qty + totalCrossableLots s limit rest := by
          simp [totalCrossableLots, h2]
        by_cases h3 : r.owner = taker
        · rw [if_pos h3] at h
          cases stb with
          | reject => exact Except.noConfusion h
          | cancelTake =>
            obtain rfl : MatchResult.mk [] [] rem (r :: rest) true = res := Except.ok.inj h
            dsimp only
            omega
          | cancelProvide =>
            cases hres : matchAgainstBook taker s SelfTradeBehavior.cancelProvide
                limit rem rest with
            | error e => rw [hres] at h; exact Except.noConfusion h
            | ok mid =>
              rw [hres] at h
              obtain rfl : { mid with
                  outs := OutEvent.mk r.owner s.opposite r.price r.qty :: mid.outs } = res :=
                Except.ok.inj h
              have := ih rem mid hbrest hres
              dsimp only
              omega
          | decrementTake =>
            by_cases h4 : rem < r.qty
            · rw [if_pos h4] at h
              obtain rfl : MatchResult.mk []
                  [OutEvent.mk r.owner s.opposite r.price rem] 0
                  ({ r with qty := r.qty - rem } :: rest) false = res := Except.ok.inj h
              dsimp only
              omega
            · rw [if_neg h4] at h
              cases hres : matchAgainstBook taker s SelfTradeBehavior.decrementTake
                  limit (rem - r.qty) rest with
              | error e => rw [hres] at h; exact Except.noConfusion h
              | ok mid =>
                rw [hres] at h
                obtain rfl : { mid with
                    outs := OutEvent.mk r.owner s.opposite r.price r.qty :: mid.outs } = res :=
                  Except.ok.inj h
                have := ih (rem - r.qty) mid hbrest hres
                dsimp only
                omega
        · rw [if_neg h3] at h
          by_cases h4 : rem < r.qty
          · rw [if_pos h4] at h
            obtain rfl : MatchResult.mk
                [FillEvent.mk r.owner taker s r.price rem r.seq] [] 0
                ({ r with qty := r.qty - rem } :: rest) false = res := Except.ok.inj h
            dsimp only
            omega
          · rw [if_neg h4] at h
            cases hres : matchAgainstBook taker s stb limit (rem - r.qty) rest with
            | error e => rw [hres] at h; exact Except.noConfusion h
            | ok mid =>
              rw [hres] at h
              obtain rfl : { mid with
                  fills := FillEvent.mk r.owner taker s r.price r.qty r.seq :: mid.fills } = res :=
                Except.ok.inj h
              have := ih (rem - r.qty) mid hbrest hres
              dsimp only
              omega
      · rw [if_neg h2] at h
        obtain rfl : MatchResult.mk [] [] rem (r :: rest) false = res := Except.ok.inj h
        have htcons : totalCrossableLots s limit (r :: rest) =
            totalCrossableLots s limit rest := by
          simp [totalCrossableLots, h2]
        dsimp only
        omega

/-- Shape of the fills of one matching walk: every fill's taker is the
incoming owner, its side is the incoming side, its maker differs from the
taker, and its maker, price and sequence number are those of some resting
order of the walked book. -/
theorem matchAgainstBook_fills_shape (taker : Nat) (s : Side)
    (stb : SelfTradeBehavior) (limit : Int) :
    ∀ (book : List RestingOrder) (rem : Int) (res : MatchResult),
      matchAgainstBook taker s stb limit rem book = .ok res →
      ∀ f ∈ res.fills, f.taker = taker ∧ f.takerSide = s ∧ f.maker ≠ taker ∧
        ∃ r, r ∈ book ∧ f.maker = r.owner ∧ f.price = r.price ∧ f.makerSeq = r.seq := by
  intro book
  induction book with
  | nil =>
    intro rem res h f hf
    obtain rfl : MatchResult.mk [] [] rem [] false = res := Except.ok.inj h
    simp at hf
  | cons r rest ih =>
    intro rem res h f hf
    unfold matchAgainstBook at h
    by_cases h1 : rem ≤ 0
    · rw [if_pos h1] at h
      obtain rfl : MatchResult.mk [] [] rem (r :: rest) false = res := Except.ok.inj h
      simp at hf
    · rw [if_neg h1] at h
      by_cases h2 : crosses s limit r.price
      · rw [if_pos h2] at h
        by_cases h3 : r.owner = taker
        · rw [if_pos h3] at h
          cases stb with
          | reject => exact Except.noConfusion h
          | cancelTake =>
            obtain rfl : MatchResult.mk [] [] rem (r :: rest) true = res := Except.ok.inj h
            simp at hf
          | cancelProvide =>
            cases hres : matchAgainstBook taker s SelfTradeBehavior.cancelProvide
                limit rem rest with
            | error e => rw [hres] at h; exact Except.noConfusion h
            | ok mid =>
              rw [hres] at h
              obtain rfl : { mid with
                  outs := OutEvent.mk r.owner s.opposite r.price r.qty :: mid.outs } = res :=
                Except.ok.inj h
              obtain ⟨ht, hs, hm, rr, hrr, hprops⟩ := ih rem mid hres f hf
              exact ⟨ht, hs, hm, rr, List.mem_cons_of_mem r hrr, hprops⟩
          | decrementTake =>
            by_cases h4 : rem < r.qty
            · rw [if_pos h4] at h
              obtain rfl : MatchResult.mk []
                  [OutEvent.mk r.owner s.opposite r.price rem] 0
                  ({ r with qty := r.qty - rem } :: rest) false = res := Except.ok.inj h
              simp at hf
            · rw [if_neg h4] at h
              cases hres : matchAgainstBook taker s SelfTradeBehavior.decrementTake
                  limit (rem - r.qty) rest with
              | error e => rw [hres] at h; exact Except.noConfusion h
              | ok mid =>
                rw [hres] at h
                obtain rfl : { mid with
                    outs := OutEvent.mk r.owner s.opposite r.price r.qty :: mid.outs } = res :=
                  Except.ok.inj h
                obtain ⟨ht, hs, hm, rr, hrr, hprops⟩ := ih (rem - r.qty) mid hres f hf
                exact ⟨ht, hs, hm, rr, List.mem_cons_of_mem r hrr, hprops⟩
        · rw [if_neg h3] at h
          by_cases h4 : rem < r.qty
          · rw [if_pos h4] at h
            obtain rfl : MatchResult.mk
                [FillEvent.mk r.owner taker s r.price rem r.seq] [] 0
                ({ r with qty := r.qty - rem } :: rest) false = res := Except.ok.inj h
            simp only [List.mem_singleton] at hf
            subst hf
            exact ⟨rfl, rfl, h3, r, List.mem_cons_self r rest, rfl, rfl, rfl⟩
          · rw [if_neg h4] at h
            cases hres : matchAgainstBook taker s stb limit (rem - r.qty) rest with
            | error e => rw [hres] at h; exact Except.noConfusion h
            | ok mid =>
              rw [hres] at h
              obtain rfl : { mid with
                  fills := FillEvent.mk r.owner taker s r.price r.qty r.seq :: mid.fills } = res :=
                Except.ok.inj h
              rcases List.mem_cons.mp hf with rfl | hf2
              · exact ⟨rfl, rfl, h3, r, List.mem_cons_self r rest, rfl, rfl, rfl⟩
              · obtain ⟨ht, hs, hm, rr, hrr, hprops⟩ := ih (rem - r.qty) mid hres f hf2
                exact ⟨ht, hs, hm, rr, List.mem_cons_of_mem r hrr, hprops⟩
      · rw [if_neg h2] at h
        obtain rfl : MatchResult.mk [] [] rem (r :: rest) false = res := Except.ok.inj h
        simp at hf

/-- C3.  In every matching pass over a book in price-time priority order, the
fills happen in priority order: whenever one fill precedes another, its maker
order has a strictly better price, or the same price and a strictly smaller
(earlier) sequence number — price priority always dominates sequence. -/
theorem matching_price_time_priority (taker : Nat) (s : Side)
    (stb : SelfTradeBehavior) (limit : Int) :
    ∀ (book : List RestingOrder) (rem : Int) (res : MatchResult),
      book.Pairwise (bookPriority s.opposite) →
      matchAgainstBook taker s stb limit rem book = .ok res →
      res.fills.Pairwise (fillPriority s.opposite) := by
  intro book
  induction book with
  | nil =>
    intro rem res _ h
    obtain rfl : MatchResult.mk [] [] rem [] false = res := Except.ok.inj h
    exact List.Pairwise.nil
  | cons r rest ih =>
    intro rem res hsorted h
    have hr : ∀ rr ∈ rest, bookPriority s.opposite r rr :=
      fun rr hrr => List.rel_of_pairwise_cons hsorted hrr
    have hrest : rest.Pairwise (bookPriority s.opposite) := hsorted.of_cons
    unfold matchAgainstBook at h
    by_cases h1 : rem ≤ 0
    · rw [if_pos h1] at h
      obtain rfl : MatchResult.mk [] [] rem (r :: rest) false = res := Except.ok.inj h
      exact List.Pairwise.nil
    · rw [if_neg h1] at h
      by_cases h2 : crosses s limit r.price
      · rw [if_pos h2] at h
        by_cases h3 : r.owner = taker
        · rw [if_pos h3] at h
          cases stb with
          | reject => exact Except.noConfusion h
          | cancelTake =>
            obtain rfl : MatchResult.mk [] [] rem (r :: rest) true = res := Except.ok.inj h
            exact List.Pairwise.nil
          | cancelProvide =>
            cases hres : matchAgainstBook taker s SelfTradeBehavior.cancelProvide
                limit rem rest with
            | error e => rw [hres] at h; exact Except.noConfusion h
            | ok mid =>
              rw [hres] at h
              obtain rfl : { mid with
                  outs := OutEvent.mk r.owner s.opposite r.price r.qty :: mid.outs } = res :=
                Except.ok.inj h
              exact ih rem mid hrest hres
          | decrementTake =>
            by_cases h4 : rem < r.qty
            · rw [if_pos h4] at h
              obtain rfl : MatchResult.mk []
                  [OutEvent.mk r.owner s.opposite r.price rem] 0
                  ({ r with qty := r.qty - rem } :: rest) false = res := Except.ok.inj h
              exact List.Pairwise.nil
            · rw [if_neg h4] at h
              cases hres : matchAgainstBook taker s SelfTradeBehavior.decrementTake
                  limit (rem - r.qty) rest with
              | error e => rw [hres] at h; exact Except.noConfusion h
              | ok mid =>
                rw [hres] at h
                obtain rfl : { mid with
                    outs := OutEvent.mk r.owner s.opposite r.price r.qty :: mid.outs } = res :=
                  Except.ok.inj h
                exact ih (rem - r.qty) mid hrest hres
        · rw [if_neg h3] at h
          by_cases h4 : rem < r.qty
          · rw [if_pos h4] at h
            obtain rfl : MatchResult.mk
                [FillEvent.mk r.owner taker s r.price rem r.seq] [] 0
                ({ r with qty := r.qty - rem } :: rest) false = res := Except.ok.inj h
            exact List.pairwise_singleton _ _
          · rw [if_neg h4] at h
            cases hres : matchAgainstBook taker s stb limit (rem - r.qty) rest with
            | error e => rw [hres] at h; exact Except.noConfusion h
            | ok mid =>
              rw [hres] at h
              obtain rfl : { mid with
                  fills := FillEvent.mk r.owner taker s r.price r.qty r.seq :: mid.fills } = res :=
                Except.ok.inj h
              refine List.Pairwise.cons ?_ (ih (rem - r.qty) mid hrest hres)
              intro g hg
              obtain ⟨_, _, _, rr, hrr, _, hpr, hsq⟩ :=
                matchAgainstBook_fills_shape taker s stb limit rest
                  (rem - r.qty) mid hres g hg
              have hb := hr rr hrr
              dsimp only [fillPriority]
              rw [hpr, hsq]
              exact hb
      · rw [if_neg h2] at h
        obtain rfl : MatchResult.mk [] [] rem (r :: rest) false = res := Except.ok.inj h
        exact List.Pairwise.nil

/-- Witness for C3: walking the example ask book (prices 50, 50, 60 with
sequences 0, 1, 2) with a 3-lot bid produces fills in priority order. -/
theorem matching_price_time_priority_witness :
    exBook.Pairwise (bookPriority Side.bid.opposite) ∧
    exMatchRes.fills.Pairwise (fillPriority Side.bid.opposite) :=
  ⟨by decide,
   matching_price_time_priority 9 .bid .decrementTake 60 exBook 3 exMatchRes
     (by decide) rfl⟩

/-- The committed placement's event queue is the old queue plus the walk's
fill and out events. -/
theorem applyMatch_events (st : EngineState) (o : OrderParams) (res : MatchResult) :
    (applyMatch st o res).1.events =
      st.events ++ res.fills.map Event.fill ++ res.outs.map Event.out := rfl

/-- Deferred consumption only removes events: every event still pending after
a consume pass was pending before it. -/
theorem consumeEventsAux_events_subset (m : Market) (accts : List Nat) :
    ∀ (q : List Event) (ps : Nat → Position) (e : Event),
      e ∈ (consumeEventsAux m accts q ps).1 → e ∈ q := by
  intro q
  induction q with
  | nil => intro ps e h; simp [consumeEventsAux] at h
  | cons x rest ih =>
    intro ps e h
    by_cases hx : eventAccount x ∈ accts
    · simp only [consumeEventsAux, if_pos hx] at h
      exact List.mem_cons_of_mem x (ih _ e h)
    · simp only [consumeEventsAux, if_neg hx] at h
      rcases List.mem_cons.mp h with rfl | h2
      · exact List.mem_cons_self _ _
      · exact List.mem_cons_of_mem x (ih _ e h2)

/-- One instruction preserves the absence of self-trade fill events in the
queue. -/
theorem stepOp_preserves_no_self (st : EngineState) (op : Op)
    (hst : ∀ f : FillEvent, Event.fill f ∈ st.events → f.maker ≠ f.taker) :
    ∀ f : FillEvent, Event.fill f ∈ (stepOp st op).events → f.maker ≠ f.taker := by
  intro f hf
  cases op with
  | place o =>
    simp only [stepOp] at hf
    cases hplace : placeOrder st o with
    | error e => rw [hplace] at hf; exact hst f hf
    | ok pr =>
      rw [hplace] at hf
      obtain ⟨res, hres, happ⟩ := placeOrder_ok_inv st o pr.1 pr.2 hplace
      have hev : pr.1.events =
          st.events ++ res.fills.map Event.fill ++ res.outs.map Event.out := by
        have h1 : pr.1 = (applyMatch st o res).1 := congrArg Prod.fst happ
        rw [h1, applyMatch_events]
      rw [hev] at hf
      rcases List.mem_append.mp hf with hf1 | hf2
      · rcases List.mem_append.mp hf1 with hold | hfill
        · exact hst f hold
        · obtain ⟨g, hg, hge⟩ := List.mem_map.mp hfill
          obtain rfl : g = f := Event.fill.inj hge
          obtain ⟨ht, _, hm, _⟩ :=
            matchAgainstBook_fills_shape o.owner o.side o.selfTradeBehavior
              o.priceLots (oppositeBook st o.side) o.maxBaseLots res hres g hg
          rw [ht]
          exact hm
      · obtain ⟨g, _, hge⟩ := List.mem_map.mp hf2
        exact Event.noConfusion hge
  | cancel owner cid => exact hst f hf
  | cancelAll owner => exact hst f hf
  | consume accts =>
    exact hst f (consumeEventsAux_events_subset st.market accts st.events st.positions
      (Event.fill f) hf)
  | settle owner => exact hst f hf
  | sweep caller =>
    simp only [stepOp] at hf
    by_cases hc : caller = st.market.collectFeeAdmin
    · simp only [sweepFees, if_pos hc] at hf
      exact hst f hf
    · simp only [sweepFees, if_neg hc] at hf
      exact hst f hf

/-- A run of instructions preserves the absence of self-trade fill events. -/
theorem runOps_preserves_no_self (ops : List Op) :
    ∀ (st : EngineState),
      (∀ f : FillEvent, Event.fill f ∈ st.events → f.maker ≠ f.taker) →
      ∀ f : FillEvent, Event.fill f ∈ (runOps st ops).events → f.maker ≠ f.taker := by
  induction ops with
  | nil => intro st h; exact h
  | cons op rest ih =>
    intro st h
    exact ih (stepOp st op) (stepOp_preserves_no_self st op h)

/-- C7.  No sequence of operations from a fresh market ever produces a fill
event whose maker and taker are the same account, whatever self-trade
behavior each order carries. -/
theorem no_self_trade_fill (m : Market) (ops : List Op) (f : FillEvent)
    (hmem : Event.fill f ∈ (runOps (initState m) ops).events) :
    f.maker ≠ f.taker :=
  runOps_preserves_no_self ops (initState m)
    (fun g hg => absurd hg (by simp [initState])) f hmem

/-- Witness for C7: after the two scenario placements the queue holds the
fill event with maker 0 and taker 1; the theorem instance yields 0 ≠ 1. -/
theorem no_self_trade_fill_witness :
    Event.fill ⟨0, 1, .ask, 10000, 1, 0⟩ ∈
      (runOps (initState exMarket)
        [.place ⟨0, .bid, 10000, 1, .limit, .decrementTake, 0⟩,
         .place ⟨1, .ask, 10000, 1, .limit, .decrementTake, 0⟩]).events ∧
    (0 : Nat) ≠ 1 :=
  ⟨by decide,
   no_self_trade_fill exMarket
     [.place ⟨0, .bid, 10000, 1, .limit, .decrementTake, 0⟩,
      .place ⟨1, .ask, 10000, 1, .limit, .decrementTake, 0⟩]
     ⟨0, 1, .ask, 10000, 1, 0⟩ (by decide)⟩

/-- C8.  A fill-or-kill order (with a positive limit price and a self-trade
behavior other than reject) whose quantity exceeds the total resting
liquidity it can cross fails with `WouldNotFullyFill`, and the failing
instruction leaves the whole engine state — book, event queue, positions —
exactly as it was. -/
theorem fok_would_not_fully_fill (st : EngineState) (o : OrderParams)
    (hfok : o.orderType = .fillOrKill)
    (hstb : o.selfTradeBehavior ≠ .reject)
    (hp : 0 < o.priceLots)
    (hbook : ∀ r ∈ oppositeBook st o.side, 0 ≤ r.qty)
    (hliq : totalCrossableLots o.side o.priceLots (oppositeBook st o.side) <
      o.maxBaseLots) :
    placeOrder st o = .error .wouldNotFullyFill ∧ stepOp st (.place o) = st := by
  obtain ⟨res, hres⟩ := matchAgainstBook_isOk o.owner o.side o.selfTradeBehavior
    o.priceLots hstb (oppositeBook st o.side) o.maxBaseLots
  have hq : 0 < o.maxBaseLots :=
    lt_of_le_of_lt (totalCrossableLots_nonneg o.side o.priceLots _ hbook) hliq
  have hrem : 0 < res.remaining := by
    have := matchAgainstBook_remaining_ge o.owner o.side o.selfTradeBehavior
      o.priceLots (oppositeBook st o.side) o.maxBaseLots res hbook hres
    omega
  have hplace : placeOrder st o = .error .wouldNotFullyFill := by
    simp [placeOrder, hres, hfok, hrem, not_le.mpr hp, not_le.mpr hq]
  exact ⟨hplace, by simp [stepOp, hplace]⟩

/-- Witness for C8: on the book holding a single 1-lot bid, the 2-lot
fill-or-kill ask fails with `WouldNotFullyFill` and the state is unchanged. -/
theorem fok_would_not_fully_fill_witness :
    placeOrder exStateAfterBid exFOK = .error .wouldNotFullyFill ∧
    stepOp exStateAfterBid (.place exFOK) = exStateAfterBid :=
  fok_would_not_fully_fill exStateAfterBid exFOK rfl (by decide) (by decide)
    (by decide) (by decide)

/-- A fee of at most 100%, rounded up, never exceeds the notional it is
charged on. -/
theorem feeCeil_le_notional (rateNum n : Int) (h1 : rateNum ≤ 1000000)
    (h2 : 0 ≤ n) : feeCeil rateNum n ≤ n := by
  have h : rateNum * n ≤ 1000000 * n := mul_le_mul_of_nonneg_right h1 h2
  unfold feeCeil
  omega

/-- A positive trade on a well-formed market has positive native notional. -/
theorem notionalNative_pos (m : Market) (hql : 0 < m.quoteLotSize)
    (price qty : Int) (hp : 0 < price) (hq : 0 < qty) :
    0 < notionalNative m price qty :=
  mul_pos (mul_pos hq hp) hql

/-- The synchronous taker update credits only nonnegative amounts to the free
balances. -/
theorem applyTakerFill_wf (m : Market) (p : Position) (f : FillEvent)
    (hm : marketWF m) (hp : positionWF p) (hfp : 0 < f.price) (hfq : 0 < f.qty) :
    positionWF (applyTakerFill m p f) := by
  obtain ⟨hbl, hql, htf, hmf⟩ := hm
  obtain ⟨hpb, hpq⟩ := hp
  have hn : 0 < notionalNative m f.price f.qty :=
    notionalNative_pos m hql f.price f.qty hfp hfq
  have htle := feeCeil_le_notional m.takerFeeNum (notionalNative m f.price f.qty) htf hn.le
  have hbase : 0 ≤ f.qty * m.baseLotSize := (mul_pos hfq hbl).le
  cases hts : f.takerSide with
  | bid =>
    simp only [applyTakerFill, positionWF, hts, fillDeltas]
    constructor <;> linarith
  | ask =>
    simp only [applyTakerFill, positionWF, hts, fillDeltas]
    constructor <;> linarith

/-- The deferred maker update credits only nonnegative amounts to the free
balances. -/
theorem applyMakerFill_wf (m : Market) (p : Position) (f : FillEvent)
    (hm : marketWF m) (hp : positionWF p) (hfp : 0 < f.price) (hfq : 0 < f.qty) :
    positionWF (applyMakerFill m p f) := by
  obtain ⟨hbl, hql, htf, hmf⟩ := hm
  obtain ⟨hpb, hpq⟩ := hp
  have hn : 0 < notionalNative m f.price f.qty :=
    notionalNative_pos m hql f.price f.qty hfp hfq
  have hmle := feeCeil_le_notional m.makerFeeNum (notionalNative m f.price f.qty) hmf hn.le
  have hbase : 0 ≤ f.qty * m.baseLotSize := (mul_pos hfq hbl).le
  cases hts : f.takerSide with
  | bid =>
    simp only [applyMakerFill, positionWF, hts, fillDeltas]
    constructor <;> linarith
  | ask =>
    simp only [applyMakerFill, positionWF, hts, fillDeltas]
    constructor <;> linarith

/-- Releasing an out event credits only nonnegative amounts to the free
balances. -/
theorem applyOutEvent_wf (m : Market) (p : Position) (o : OutEvent)
    (hm : marketWF m) (hp : positionWF p) (hop : 0 < o.price) (hoq : 0 < o.qty) :
    positionWF (applyOutEvent m p o) := by
  obtain ⟨hbl, hql, _, _⟩ := hm
  obtain ⟨hpb, hpq⟩ := hp
  have hn : 0 < notionalNative m o.price o.qty :=
    notionalNative_pos m hql o.price o.qty hop hoq
  have hbase : 0 ≤ o.qty * m.baseLotSize := (mul_pos hoq hbl).le
  cases hos : o.side with
  | bid =>
    simp only [applyOutEvent, positionWF, hos]
    constructor <;> linarith
  | ask =>
    simp only [applyOutEvent, positionWF, hos]
    constructor <;> linarith

/-- Folding the taker update over a list of positive fills preserves the free
balance invariant. -/
theorem foldl_applyTakerFill_wf (m : Market) (hm : marketWF m) :
    ∀ (fs : List FillEvent) (p : Position), positionWF p →
      (∀ f ∈ fs, 0 < f.price ∧ 0 < f.qty) →
      positionWF (fs.foldl (applyTakerFill m) p) := by
  intro fs
  induction fs with
  | nil => intro p hp _; exact hp
  | cons f rest ih =>
    intro p hp hfs
    have hf := hfs f (List.mem_cons_self f rest)
    exact ih (applyTakerFill m p f)
      (applyTakerFill_wf m p f hm hp hf.1 hf.2)
      (fun g hg => hfs g (List.mem_cons_of_mem f hg))

/-- Folding the out-event release over a list of well-formed orders preserves
the free balance invariant. -/
theorem foldl_applyOutEvent_wf (m : Market) (hm : marketWF m) (sd : Side) :
    ∀ (l : List RestingOrder) (p : Position), positionWF p →
      (∀ r ∈ l, orderWF r) →
      positionWF (l.foldl
        (fun p r => applyOutEvent m p ⟨r.owner, sd, r.price, r.qty⟩) p) := by
  intro l
  induction l with
  | nil => intro p hp _; exact hp
  | cons r rest ih =>
    intro p hp hl
    have hr := hl r (List.mem_cons_self r rest)
    exact ih (applyOutEvent m p ⟨r.owner, sd, r.price, r.qty⟩)
      (applyOutEvent_wf m p ⟨r.owner, sd, r.price, r.qty⟩ hm hp hr.1 hr.2)
      (fun x hx => hl x (List.mem_cons_of_mem r hx))

/-- The matching walk over a well-formed book produces fills and outs with
positive price and quantity, and leaves a well-formed book. -/
theorem matchAgainstBook_ok_wf (taker : Nat) (s : Side) (stb : SelfTradeBehavior)
    (limit : Int) :
    ∀ (book : List RestingOrder) (rem : Int) (res : MatchResult),
      (∀ r ∈ book, orderWF r) →
      matchAgainstBook taker s stb limit rem book = .ok res →
      (∀ f ∈ res.fills, 0 < f.price ∧ 0 < f.qty) ∧
      (∀ e ∈ res.outs, 0 < e.price ∧ 0 < e.qty) ∧
      (∀ r ∈ res.book, orderWF r) := by
  intro book
  induction book with
  | nil =>
    intro rem res _ h
    obtain rfl : MatchResult.mk [] [] rem [] false = res := Except.ok.inj h
    refine ⟨?_, ?_, ?_⟩ <;> intro x hx <;> simp at hx
  | cons r rest ih =>
    intro rem res hb h
    have hrwf : orderWF r := hb r (List.mem_cons_self r rest)
    have hbrest : ∀ x ∈ rest, orderWF x := fun x hx => hb x (List.mem_cons_of_mem r hx)
    unfold matchAgainstBook at h
    by_cases h1 : rem ≤ 0
    · rw [if_pos h1] at h
      obtain rfl : MatchResult.mk [] [] rem (r :: rest) false = res := Except.ok.inj h
      exact ⟨fun x hx => absurd hx (by simp), fun x hx => absurd hx (by simp), hb⟩
    · rw [if_neg h1] at h
      have hrem : 0 < rem := by omega
      by_cases h2 : crosses s limit r.price
      · rw [if_pos h2] at h
        by_cases h3 : r.owner = taker
        · rw [if_pos h3] at h
          cases stb with
          | reject => exact Except.noConfusion h
          | cancelTake =>
            obtain rfl : MatchResult.mk [] [] rem (r :: rest) true = res := Except.ok.inj h
            exact ⟨fun x hx => absurd hx (by simp), fun x hx => absurd hx (by simp), hb⟩
          | cancelProvide =>
            cases hres : matchAgainstBook taker s SelfTradeBehavior.cancelProvide
                limit rem rest with
            | error e => rw [hres] at h; exact Except.noConfusion h
            | ok mid =>
              rw [hres] at h
              obtain rfl : { mid with
                  outs := OutEvent.mk r.owner s.opposite r.price r.qty :: mid.outs } = res :=
                Except.ok.inj h
              obtain ⟨hfm, hom, hbm⟩ := ih rem mid hbrest hres
              refine ⟨hfm, ?_, hbm⟩
              intro x hx
              rcases List.mem_cons.mp hx with rfl | hx2
              · exact ⟨hrwf.1, hrwf.2⟩
              · exact hom x hx2
          | decrementTake =>
            by_cases h4 : rem < r.qty
            · rw [if_pos h4] at h
              obtain rfl : MatchResult.mk []
                  [OutEvent.mk r.owner s.opposite r.price rem] 0
                  ({ r with qty := r.qty - rem } :: rest) false = res := Except.ok.inj h
              refine ⟨fun x hx => absurd hx (by simp), ?_, ?_⟩
              · intro x hx
                rcases List.mem_cons.mp hx with rfl | hx2
                · exact ⟨hrwf.1, hrem⟩
                · simp at hx2
              · intro x hx
                rcases List.mem_cons.mp hx with rfl | hx2
                · exact ⟨hrwf.1, by dsimp only [orderWF] at hrwf ⊢; omega⟩
                · exact hbrest x hx2
            · rw [if_neg h4] at h
              cases hres : matchAgainstBook taker s SelfTradeBehavior.decrementTake
                  limit (rem - r.qty) rest with
              | error e => rw [hres] at h; exact Except.noConfusion h
              | ok mid =>
                rw [hres] at h
                obtain rfl : { mid with
                    outs := OutEvent.mk r.owner s.opposite r.price r.qty :: mid.outs } = res :=
                  Except.ok.inj h
                obtain ⟨hfm, hom, hbm⟩ := ih (rem - r.qty) mid hbrest hres
                refine ⟨hfm, ?_, hbm⟩
                intro x hx
                rcases List.mem_cons.mp hx with rfl | hx2
                · exact ⟨hrwf.1, hrwf.2⟩
                · exact hom x hx2
        · rw [if_neg h3] at h
          by_cases h4 : rem < r.qty
          · rw [if_pos h4] at h
            obtain rfl : MatchResult.mk
                [FillEvent.mk r.owner taker s r.price rem r.seq] [] 0
                ({ r with qty := r.qty - rem } :: rest) false = res := Except.ok.inj h
            refine ⟨?_, fun x hx => absurd hx (by simp), ?_⟩
            · intro x hx
              rcases List.mem_cons.mp hx with rfl | hx2
              · exact ⟨hrwf.1, hrem⟩
              · simp at hx2
            · intro x hx
              rcases List.mem_cons.mp hx with rfl | hx2
              · exact ⟨hrwf.1, by dsimp only [orderWF] at hrwf ⊢; omega⟩
              · exact hbrest x hx2
          · rw [if_neg h4] at h
            cases hres : matchAgainstBook taker s stb limit (rem - r.qty) rest with
            | error e => rw [hres] at h; exact Except.noConfusion h
            | ok mid =>
              rw [hres] at h
              obtain rfl : { mid with
                  fills := FillEvent.mk r.owner taker s r.price r.qty r.seq :: mid.fills } = res :=
                Except.ok.inj h
              obtain ⟨hfm, hom, hbm⟩ := ih (rem - r.qty) mid hbrest hres
              refine ⟨?_, hom, hbm⟩
              intro x hx
              rcases List.mem_cons.mp hx with rfl | hx2
              · exact ⟨hrwf.1, hrwf.2⟩
              · exact hfm x hx2
      · rw [if_neg h2] at h
        obtain rfl : MatchResult.mk [] [] rem (r :: rest) false = res := Except.ok.inj h
        exact ⟨fun x hx => absurd hx (by simp), fun x hx => absurd hx (by simp), hb⟩

/-- Members of a book after insertion are the new order or old members. -/
theorem insertOrder_mem (s : Side) (o : RestingOrder) :
    ∀ (l : List RestingOrder) (r : RestingOrder),
      r ∈ insertOrder s o l → r = o ∨ r ∈ l := by
  intro l
  induction l with
  | nil =>
    intro r h
    simp only [insertOrder, List.mem_singleton] at h
    exact Or.inl h
  | cons x rest ih =>
    intro r h
    unfold insertOrder at h
    by_cases hc : betterPrice s o.price x.price = true
    · rw [if_pos hc] at h
      rcases List.mem_cons.mp h with rfl | h2
      · exact Or.inl rfl
      · exact Or.inr h2
    · rw [if_neg hc] at h
      rcases List.mem_cons.mp h with rfl | h2
      · exact Or.inr (List.mem_cons_self _ _)
      · rcases ih r h2 with h3 | h3
        · exact Or.inl h3
        · exact Or.inr (List.mem_cons_of_mem x h3)

/-- A successful placement implies a positive limit price. -/
theorem placeOrder_ok_pos (st : EngineState) (o : OrderParams)
    (st2 : EngineState) (out : PlaceOutcome)
    (h : placeOrder st o = .ok (st2, out)) : 0 < o.priceLots := by
  by_cases h1 : o.priceLots ≤ 0
  · unfold placeOrder at h
    rw [if_pos h1] at h
    exact Except.noConfusion h
  · omega

/-- The market configuration is unchanged by a placement commit. -/
theorem applyMatch_market (st : EngineState) (o : OrderParams) (res : MatchResult) :
    (applyMatch st o res).1.market = st.market := rfl

/-- The committed placement keeps every Position's free balances
nonnegative. -/
theorem applyMatch_positions_wf (st : EngineState) (o : OrderParams)
    (res : MatchResult) (hm : marketWF st.market)
    (hpos : ∀ b, positionWF (st.positions b))
    (hfills : ∀ f ∈ res.fills, 0 < f.price ∧ 0 < f.qty) :
    ∀ a, positionWF ((applyMatch st o res).1.positions a) := by
  intro a
  have htaker : positionWF
      (res.fills.foldl (applyTakerFill st.market) (st.positions o.owner)) :=
    foldl_applyTakerFill_wf st.market hm res.fills (st.positions o.owner)
      (hpos o.owner) hfills
  by_cases ha : a = o.owner
  · subst ha
    simp only [applyMatch, if_pos rfl]
    by_cases hdr : (o.orderType == OrderType.limit && !res.killed &&
        decide (0 < res.remaining)) = true
    · rw [if_pos hdr]
      cases o.side <;> exact htaker
    · rw [if_neg hdr]
      exact htaker
  · rw [applyMatch_positions_frame st o res a ha]
    exact hpos a

/-- The committed placement keeps both book sides well-formed. -/
theorem applyMatch_books_wf (st : EngineState) (o : OrderParams)
    (res : MatchResult) (hpq : 0 < o.priceLots)
    (hbids : ∀ r ∈ st.bids, orderWF r) (hasks : ∀ r ∈ st.asks, orderWF r)
    (hbook : ∀ r ∈ res.book, orderWF r) :
    (∀ r ∈ (applyMatch st o res).1.bids, orderWF r) ∧
    (∀ r ∈ (applyMatch st o res).1.asks, orderWF r) := by
  have hnew : ∀ (sd : Side) (l : List RestingOrder), (∀ r ∈ l, orderWF r) →
      0 < res.remaining →
      ∀ r ∈ insertOrder sd
        ⟨o.owner, o.priceLots, res.remaining, st.seqCounter, o.clientOrderId⟩ l,
        orderWF r := by
    intro sd l hl hrem r hr
    rcases insertOrder_mem sd _ l r hr with rfl | h2
    · exact ⟨hpq, hrem⟩
    · exact hl r h2
  by_cases hdr : (o.orderType == OrderType.limit && !res.killed &&
      decide (0 < res.remaining)) = true
  · have hrem : 0 < res.remaining := by
      have h2 := hdr
      simp only [Bool.and_eq_true, decide_eq_true_eq] at h2
      exact h2.2
    cases hside : o.side with
    | bid =>
      constructor
      · simp only [applyMatch, hside]
        rw [if_pos hdr]
        exact hnew .bid st.bids hbids hrem
      · simp only [applyMatch, hside]
        exact hbook
    | ask =>
      constructor
      · simp only [applyMatch, hside]
        exact hbook
      · simp only [applyMatch, hside]
        rw [if_pos hdr]
        exact hnew .ask st.asks hasks hrem
  · cases hside : o.side with
    | bid =>
      constructor
      · simp only [applyMatch, hside]
        rw [if_neg hdr]
        exact hbids
      · simp only [applyMatch, hside]
        exact hbook
    | ask =>
      constructor
      · simp only [applyMatch, hside]
        exact hbook
      · simp only [applyMatch, hside]
        rw [if_neg hdr]
        exact hasks

/-- The committed placement keeps the event queue well-formed. -/
theorem applyMatch_events_wf (st : EngineState) (o : OrderParams)
    (res : MatchResult) (hev : ∀ e ∈ st.events, eventWF e)
    (hfills : ∀ f ∈ res.fills, 0 < f.price ∧ 0 < f.qty)
    (houts : ∀ e ∈ res.outs, 0 < e.price ∧ 0 < e.qty) :
    ∀ e ∈ (applyMatch st o res).1.events, eventWF e := by
  intro e he
  rw [applyMatch_events] at he
  rcases List.mem_append.mp he with h1 | h2
  · rcases List.mem_append.mp h1 with hold | hfill
    · exact hev e hold
    · obtain ⟨f, hf, rfl⟩ := List.mem_map.mp hfill
      exact hfills f hf
  · obtain ⟨x, hx, rfl⟩ := List.mem_map.mp h2
    exact houts x hx

/-- Deferred consumption keeps every Position's free balances nonnegative. -/
theorem consumeEventsAux_positions_wf (m : Market) (hm : marketWF m)
    (accts : List Nat) :
    ∀ (q : List Event) (ps : Nat → Position),
      (∀ e ∈ q, eventWF e) → (∀ b, positionWF (ps b)) →
      ∀ a, positionWF ((consumeEventsAux m accts q ps).2 a) := by
  intro q
  induction q with
  | nil => intro ps _ hps a; exact hps a
  | cons e rest ih =>
    intro ps hq hps a
    have hqe : eventWF e := hq e (List.mem_cons_self e rest)
    have hqrest : ∀ x ∈ rest, eventWF x := fun x hx => hq x (List.mem_cons_of_mem e hx)
    by_cases hx : eventAccount e ∈ accts
    · simp only [consumeEventsAux, if_pos hx]
      apply ih _ hqrest _ a
      intro b
      by_cases hb : b = eventAccount e
      · rw [if_pos hb]
        cases e with
        | fill f => exact applyMakerFill_wf m _ f hm (hps _) hqe.1 hqe.2
        | out ev => exact applyOutEvent_wf m _ ev hm (hps _) hqe.1 hqe.2
      · rw [if_neg hb]
        exact hps b
    · simp only [consumeEventsAux, if_neg hx]
      exact ih ps hqrest hps a

/-- Every instruction preserves the engine-state invariant. -/
theorem stepOp_wf (st : EngineState) (op : Op) (h : stateWF st) :
    stateWF (stepOp st op) := by
  obtain ⟨hm, hbids, hasks, hev, hpos⟩ := h
  cases op with
  | place o =>
    simp only [stepOp]
    cases hplace : placeOrder st o with
    | error e => exact ⟨hm, hbids, hasks, hev, hpos⟩
    | ok pr =>
      obtain ⟨res, hres, happ⟩ := placeOrder_ok_inv st o pr.1 pr.2 hplace
      have hpr1 : pr.1 = (applyMatch st o res).1 := congrArg Prod.fst happ
      have hbookwf : ∀ r ∈ oppositeBook st o.side, orderWF r := by
        cases hside : o.side with
        | bid => exact hasks
        | ask => exact hbids
      obtain ⟨hfills, houts, hbook⟩ :=
        matchAgainstBook_ok_wf o.owner o.side o.selfTradeBehavior o.priceLots
          (oppositeBook st o.side) o.maxBaseLots res hbookwf hres
      have hpq : 0 < o.priceLots := placeOrder_ok_pos st o pr.1 pr.2 hplace
      show stateWF pr.1
      rw [hpr1]
      obtain ⟨hb2, ha2⟩ := applyMatch_books_wf st o res hpq hbids hasks hbook
      exact ⟨by rw [applyMatch_market]; exact hm, hb2, ha2,
        applyMatch_events_wf st o res hev hfills houts,
        applyMatch_positions_wf st o res hm hpos hfills⟩
  | cancel owner cid =>
    refine ⟨hm, ?_, ?_, hev, ?_⟩
    · intro r hr
      exact hbids r (List.mem_of_mem_filter hr)
    · intro r hr
      exact hasks r (List.mem_of_mem_filter hr)
    · intro a
      by_cases ha : a = owner
      · simp only [stepOp, cancelOrderByClientOrderId, if_pos ha]
        apply foldl_applyOutEvent_wf st.market hm .ask
        · apply foldl_applyOutEvent_wf st.market hm .bid
          · exact hpos owner
          · intro r hr
            exact hbids r (List.mem_of_mem_filter hr)
        · intro r hr
          exact hasks r (List.mem_of_mem_filter hr)
      · simp only [stepOp, cancelOrderByClientOrderId, if_neg ha]
        exact hpos a
  | cancelAll owner =>
    refine ⟨hm, ?_, ?_, hev, ?_⟩
    · intro r hr
      exact hbids r (List.mem_of_mem_filter hr)
    · intro r hr
      exact hasks r (List.mem_of_mem_filter hr)
    · intro a
      by_cases ha : a = owner
      · simp only [stepOp, cancelAllOrders, if_pos ha]
        apply foldl_applyOutEvent_wf st.market hm .ask
        · apply foldl_applyOutEvent_wf st.market hm .bid
          · exact hpos owner
          · intro r hr
            exact hbids r (List.mem_of_mem_filter hr)
        · intro r hr
          exact hasks r (List.mem_of_mem_filter hr)
      · simp only [stepOp, cancelAllOrders, if_neg ha]
        exact hpos a
  | consume accts =>
    refine ⟨hm, hbids, hasks, ?_, ?_⟩
    · intro e he
      exact hev e (consumeEventsAux_events_subset st.market accts st.events
        st.positions e he)
    · exact consumeEventsAux_positions_wf st.market hm accts st.events
        st.positions hev hpos
  | settle owner =>
    refine ⟨hm, hbids, hasks, hev, ?_⟩
    intro a
    by_cases ha : a = owner
    · simp only [stepOp, settleFunds, if_pos ha]
      exact ⟨le_refl 0, le_refl 0⟩
    · simp only [stepOp, settleFunds, if_neg ha]
      exact hpos a
  | sweep caller =>
    simp only [stepOp]
    by_cases hc : caller = st.market.collectFeeAdmin
    · simp only [sweepFees, if_pos hc]
      exact ⟨hm, hbids, hasks, hev, hpos⟩
    · simp only [sweepFees, if_neg hc]
      exact ⟨hm, hbids, hasks, hev, hpos⟩

/-- A run of instructions preserves the engine-state invariant. -/
theorem runOps_wf (ops : List Op) :
    ∀ (st : EngineState), stateWF st → stateWF (runOps st ops) := by
  induction ops with
  | nil => intro st h; exact h
  | cons op rest ih =>
    intro st h
    exact ih (stepOp st op) (stepOp_wf st op h)

/-- A freshly created market satisfies the engine-state invariant. -/
theorem initState_wf (m : Market) (hm : marketWF m) : stateWF (initState m) := by
  refine ⟨hm, ?_, ?_, ?_, ?_⟩
  · intro r hr; simp [initState] at hr
  · intro r hr; simp [initState] at hr
  · intro e he; simp [initState] at he
  · intro a
    exact ⟨le_refl 0, le_refl 0⟩

/-- C5.  With a well-formed market configuration, after every sequence of
operations each Position's `base_free_native` and `quote_free_native` are
nonnegative. -/
theorem free_balances_nonneg (m : Market) (ops : List Op) (a : Nat)
    (hm : marketWF m) :
    0 ≤ ((runOps (initState m) ops).positions a).baseFreeNative ∧
    0 ≤ ((runOps (initState m) ops).positions a).quoteFreeNative :=
  (runOps_wf ops (initState m) (initState_wf m hm)).2.2.2.2 a

/-- Witness for C5: the free balances of the scenario's taker (account 1) are
nonnegative after the full test scenario on the example market. -/
theorem free_balances_nonneg_witness :
    0 ≤ ((runOps (initState exMarket) (scenarioOps 0 1 10000)).positions 1).baseFreeNative ∧
    0 ≤ ((runOps (initState exMarket) (scenarioOps 0 1 10000)).positions 1).quoteFreeNative :=
  free_balances_nonneg exMarket (scenarioOps 0 1 10000) 1
    (by unfold marketWF; decide)

/-- C6.  Settlement is idempotent: calling `settleFunds` twice in a row on the
same position, with nothing in between, yields a transfer of zero base and
zero quote on the second call. -/
theorem settle_funds_idempotent (st : EngineState) (owner : Nat) :
    (settleFunds (settleFunds st owner).1 owner).2 = { baseNative := 0, quoteNative := 0 } := by
  simp [settleFunds]

/-- C9.  `sweepFees` called by the configured collect-fee admin transfers the
whole of `fees_accrued` and resets it to zero; called by any other identity it
fails. -/
theorem sweep_fees_spec (st : EngineState) (caller : Nat) :
    (caller = st.market.collectFeeAdmin →
      sweepFees st caller = .ok ({ st with feesAccrued := 0 }, st.feesAccrued)) ∧
    (caller ≠ st.market.collectFeeAdmin →
      sweepFees st caller = .error .unauthorizedCollectFeeAdmin) := by
  constructor <;> intro h <;> simp [sweepFees, h]

/-- Witness for C9: on the example market with 30 units of accrued fees, the
admin's sweep returns the 30 units and resets the total; caller 6 is
rejected. -/
theorem sweep_fees_spec_witness :
    sweepFees { initState exMarket with feesAccrued := 30 } 5 =
      .ok ({ initState exMarket with feesAccrued := 0 }, 30) ∧
    sweepFees { initState exMarket with feesAccrued := 30 } 6 =
      .error .unauthorizedCollectFeeAdmin :=
  ⟨(sweep_fees_spec { initState exMarket with feesAccrued := 30 } 5).1 rfl,
   (sweep_fees_spec { initState exMarket with feesAccrued := 30 } 6).2 (by decide)⟩

end Openbook

namespace Fuzz

/-- `get_or_create_new_referrer` never touches the `users` map. -/
theorem getOrCreateNewReferrer_users (st : FuzzState) (rid : Nat) :
    ((getOrCreateNewReferrer st rid).1).users = st.users := by
  unfold getOrCreateNewReferrer
  cases st.referrers.lookup rid <;> rfl

/-- C10 counterexample: in a harness where user 3 was never created,
`settle_funds` for user 3 with referrer id 0 returns `Ok` but does not leave
the harness state unchanged — it adds a referrer entry (and its token
account). -/
theorem settle_funds_unknown_user_cex :
    exFuzzState.users.lookup 3 = none ∧
    (settleFunds exProc exFuzzState 3 (some 0)).2 = .ok ∧
    (settleFunds exProc exFuzzState 3 (some 0)).1.referrers ≠ exFuzzState.referrers ∧
    (settleFunds exProc exFuzzState 3 (some 0)).1.tokenAccounts ≠ exFuzzState.tokenAccounts := by
  refine ⟨rfl, rfl, ?_, ?_⟩ <;> decide

/-- C10 (amended).  With a user id for which no user was ever created, the
three cancel entry points return `Ok` and leave the harness state completely
unchanged, and `settle_funds` returns `Ok` and leaves the users map unchanged
(creating no user); but `settle_funds` first resolves a supplied referrer id,
so its resulting state is exactly the state after
`get_or_create_new_referrer` — unchanged only when no referrer id is supplied
or the referrer already exists. -/
theorem unknown_user_ops_frame
    (proc : List TokenAccountRec → List TokenAccountRec × ProgramResult)
    (st : FuzzState) (uid : Nat) (h : st.users.lookup uid = none) :
    cancelOrder proc st uid = (st, .ok) ∧
    cancelOrderByClientOrderId proc st uid = (st, .ok) ∧
    cancelAllOrders proc st uid = (st, .ok) ∧
    settleFunds proc st uid none = (st, .ok) ∧
    ∀ rid : Nat,
      settleFunds proc st uid (some rid) = ((getOrCreateNewReferrer st rid).1, .ok) := by
  refine ⟨?_, ?_, ?_, ?_, ?_⟩
  · simp [cancelOrder, h]
  · simp [cancelOrderByClientOrderId, h]
  · simp [cancelAllOrders, h]
  · simp [settleFunds, h]
  · intro rid
    have husers := getOrCreateNewReferrer_users st rid
    simp [settleFunds, husers, h]

/-- Witness for C10's amended theorem, on the empty harness with unknown user
id 3: the cancels are no-ops returning `Ok`, and `settle_funds` with fresh
referrer id 0 returns `Ok` having added exactly the referrer entry. -/
theorem unknown_user_ops_frame_witness :
    cancelOrder exProc exFuzzState 3 = (exFuzzState, .ok) ∧
    cancelOrderByClientOrderId exProc exFuzzState 3 = (exFuzzState, .ok) ∧
    cancelAllOrders exProc exFuzzState 3 = (exFuzzState, .ok) ∧
    settleFunds exProc exFuzzState 3 none = (exFuzzState, .ok) ∧
    (settleFunds exProc exFuzzState 3 (some 0)).1.referrers = [(0, 0)] := by
  have h := unknown_user_ops_frame exProc exFuzzState 3 rfl
  refine ⟨h.1, h.2.1, h.2.2.1, h.2.2.2.1, ?_⟩
  rw [h.2.2.2.2 0]
  rfl

end Fuzz
